import Mathlib

/-!
# Verification of the solana-playground virtual filesystem (`Explorer`)

Shallow embedding of the explorer component found in
`src/client/src/utils/pg/wallet.ts` (classes `Explorer` and `PgExplorer`).

The live map `this._explorer.files` is a JavaScript object whose keys are
path strings, kept in insertion order.  We model it as an association list
`List (String × Option ItemInfo)` with the JavaScript object semantics:

* an entry `(k, some info)` is a key holding an `ItemInfo` object;
* an entry `(k, none)` is a key holding **`undefined`** — such entries are
  created by `renameItem`'s file branch when the renamed path is not a key
  (`files[newPath] = file` with `file === undefined`).  A read `files[k]`
  yields `undefined` both for such a key and for an absent key (`lookupF`
  returns `none` in both cases), but the key itself stays enumerable: it is
  visited by `for (const k in files)` loops (`keysF`), an assignment to it
  replaces in place rather than appending (`setF`), and dereferencing its
  value (`files[k].current`, `files[k].tabs`, `files[k].content`) throws a
  `TypeError`;
* `files[k] = v` — `setF`: replace in place when the key is present
  (whatever value it holds), append at the end when it is absent;
* `delete files[k]` — `deleteF`: remove the entry;
* `for (const k in files)` — iteration over the snapshot of keys taken when
  the loop starts (keys added during the loop are not visited, keys removed
  before their visit are skipped), which is how V8 enumerates objects.

`getCurrentFile` and `getTabs` dereference every entry value they reach, so
they are modelled as `Except Unit`-valued: `Except.error ()` is the
`TypeError` thrown on an entry holding `undefined`.  A mutation that calls
them returns the state at the point of the throw (all writes made before
the throw are kept, nothing after it runs).

JavaScript string methods used by the source are modelled on `List Char`
(`strStartsWith`, `strEndsWith`, `hasSubstr`, `splitOnSlashS`, `strSplit`)
so that every definition evaluates by kernel reduction.
-/

namespace SolPg

/-! ## Character-list models of the JavaScript string methods -/

/-- `prefOf pat l` is true iff `pat` is a prefix of `l`
(model of the prefix test underlying `String.prototype.startsWith`). -/
def prefOf : List Char → List Char → Bool
  | [], _ => true
  | _ :: _, [] => false
  | a :: as, b :: bs => a == b && prefOf as bs

/-- `subOf pat l` is true iff `pat` occurs inside `l` as a contiguous run
(model of `String.prototype.includes`). -/
def subOf (pat : List Char) : List Char → Bool
  | [] => prefOf pat []
  | l@(_ :: rest) => prefOf pat l || subOf pat rest

/-- Model of JavaScript `s.startsWith(pre)`. -/
def strStartsWith (s pre : String) : Bool := prefOf pre.toList s.toList

/-- Model of JavaScript `s.endsWith(suffix)`. -/
def strEndsWith (s suffix : String) : Bool :=
  prefOf suffix.toList.reverse s.toList.reverse

/-- Model of JavaScript `s.includes(pat)`. -/
def hasSubstr (s pat : String) : Bool := subOf pat.toList s.toList

/-- Model of JavaScript `s.split("/")` on character lists:
a list of the `'/'`-separated chunks, keeping empty chunks. -/
def splitSlash : List Char → List (List Char)
  | [] => [[]]
  | c :: rest =>
    let r := splitSlash rest
    if c == '/' then [] :: r
    else
      match r with
      | [] => [[c]]
      | h :: t => (c :: h) :: t

/-- Model of JavaScript `path.split("/")`. -/
def splitOnSlashS (s : String) : List String :=
  (splitSlash s.toList).map fun l => ⟨l⟩

/-- Fuel-driven splitter for an arbitrary non-empty separator; the fuel is
always instantiated with the length of the string, which suffices. -/
def splitFuel (sep : List Char) : Nat → List Char → List (List Char)
  | _, [] => [[]]
  | 0, l => [l]
  | fuel + 1, c :: rest =>
    if prefOf sep (c :: rest) then
      [] :: splitFuel sep fuel ((c :: rest).drop sep.length)
    else
      match splitFuel sep fuel rest with
      | [] => [[c]]
      | h :: t => (c :: h) :: t

/-- Model of JavaScript `s.split(sep)` for an arbitrary separator string
(empty separator splits into single characters, as in JavaScript). -/
def strSplit (s sep : String) : List String :=
  if sep.toList.isEmpty then s.toList.map fun c => ⟨[c]⟩
  else (splitFuel sep.toList s.toList.length s.toList).map fun l => ⟨l⟩

/-! ## Data model -/

/-- `ItemError` from `src/client/src/utils/pg/errors`.
Modelled from the spec: the errors module is not under `src/`; §7 of the
spec lists exactly the two structural error kinds used by `Explorer`. -/
inductive ItemError
  | InvalidName
  | AlreadyExists
  deriving DecidableEq, Repr

/-- Result of `PgExplorer.getItemTypeFromPath` (`{folder:true}` / `{file:true}`). -/
inductive ItemType
  | file
  | folder
  deriving DecidableEq, Repr

/-- `interface ItemInfo { content?: string; current?: boolean; tabs?: boolean }`.
The source only ever reads the two flags for truthiness, so a missing flag is
indistinguishable from `false`; `content` keeps its optionality because
`getBuildFiles` distinguishes a missing content from an empty one only through
truthiness (`""` is falsy), which we model explicitly. -/
structure ItemInfo where
  content : Option String
  current : Bool
  tabs : Bool
  deriving DecidableEq, Repr

/-- The `{}` value inserted for folders. -/
def emptyInfo : ItemInfo := ⟨none, false, false⟩

/-- `interface FullFile extends ItemInfo { path: string }` as produced by
`getCurrentFile` (which leaves `current` undefined, i.e. falsy) and by
`getTabs` (which copies the flag). -/
structure FullFile where
  path : String
  content : Option String
  current : Bool
  deriving DecidableEq, Repr

/-- Decidable equality for `Except` results (used to state concrete
evaluations of the throwing queries). -/
instance {ε α : Type} [DecidableEq ε] [DecidableEq α] :
    DecidableEq (Except ε α) := fun a b =>
  match a, b with
  | Except.error e, Except.error e' =>
    if h : e = e' then isTrue (by rw [h])
    else isFalse (by intro hc; cases hc; exact h rfl)
  | Except.ok x, Except.ok y =>
    if h : x = y then isTrue (by rw [h])
    else isFalse (by intro hc; cases hc; exact h rfl)
  | Except.error _, Except.ok _ => isFalse (by intro hc; cases hc)
  | Except.ok _, Except.error _ => isFalse (by intro hc; cases hc)

/-- `interface Folder { folders: string[]; files: string[] }`. -/
structure FolderListing where
  folders : List String
  files : List String
  deriving DecidableEq, Repr

/-- The explorer map `this._explorer.files`: a JavaScript object keyed by
path, in insertion order.  A value `none` is a key holding `undefined`
(see the header): the interface declares `{[key: string]: ItemInfo}`, but
`renameItem` can store `undefined` under a key, so the model must keep the
distinction between an absent key and a key holding `undefined`. -/
abbrev Files := List (String × Option ItemInfo)

/-! ## `PgExplorer` static path functions -/

/-- `PgExplorer.getItemTypeFromPath`. -/
def getItemTypeFromPath (path : String) : ItemType :=
  if strEndsWith path "/" then ItemType.folder else ItemType.file

/-- `PgExplorer.getItemNameFromPath`.  The out-of-range index access in the
source would yield `undefined`; it is unreachable (folder paths split into at
least two chunks, file paths into at least one), modelled by a `""` default. -/
def getItemNameFromPath (path : String) : String :=
  let itemsArr := splitOnSlashS path
  match getItemTypeFromPath path with
  | ItemType.folder => itemsArr.getD (itemsArr.length - 2) ""
  | ItemType.file => itemsArr.getD (itemsArr.length - 1) ""

/-- `PgExplorer.getParentPathFromPath`: walk the leading segments (all but
the last for a file, all but the last two for a folder), skip empty ones and
append each followed by `"/"` to an initial `"/"`. -/
def getParentPathFromPath (path : String) : String :=
  let itemsArr := splitOnSlashS path
  let n :=
    match getItemTypeFromPath path with
    | ItemType.folder => itemsArr.length - 2
    | ItemType.file => itemsArr.length - 1
  (itemsArr.take n).foldl
    (fun parentPath item =>
      if item = "" then parentPath else parentPath ++ item ++ "/")
    "/"

/-- `PgExplorer.isItemNameValid`: the regex `^(?!\.)[\w.-]+$` (non-empty, not
starting with a dot, only word characters, dots and hyphens) together with the
extra `//` and `..` exclusions. -/
def isItemNameValid (name : String) : Bool :=
  !name.toList.isEmpty &&
  !strStartsWith name "." &&
  name.toList.all (fun c => c.isAlphanum || c == '_' || c == '.' || c == '-') &&
  !hasSubstr name "//" &&
  !hasSubstr name ".."

/-! ## JavaScript object primitives for the files map -/

/-- The read `files[k]` as seen by every truthiness check and dereference:
`none` when the key is absent **or** holds `undefined`, `some info` when the
key holds the object `info`.  (JavaScript reads cannot tell an absent key
from a key holding `undefined`.) -/
def lookupF : Files → String → Option ItemInfo
  | [], _ => none
  | (k', v) :: rest, k => if k' = k then v else lookupF rest k

/-- Write `files[k] = v`: replace in place if the key is present (even when
it holds `undefined`), append otherwise. -/
def setF : Files → String → Option ItemInfo → Files
  | [], k, v => [(k, v)]
  | (k', v') :: rest, k, v =>
    if k' = k then (k, v) :: rest else (k', v') :: setF rest k v

/-- `delete files[k]`. -/
def deleteF (files : Files) (k : String) : Files :=
  files.filter fun kv => kv.1 ≠ k

/-- The key snapshot a `for (const path in files)` loop iterates over
(keys holding `undefined` included — they are enumerable). -/
def keysF (files : Files) : List String := files.map Prod.fst

/-- A JavaScript object cannot hold the same key twice; every map reachable
in the program has pairwise distinct keys. -/
def Wf (files : Files) : Prop := (keysF files).Nodup

/-- No key holds `undefined`: the well-typed states the interface
`{[key: string]: ItemInfo}` describes. -/
def NoUndef (files : Files) : Prop := ∀ kv ∈ files, kv.2 ≠ none

/-- Contribution of one entry value to `curCount` (`undefined` has no
`current` flag to count). -/
def curOne : Option ItemInfo → Nat
  | some i => if i.current then 1 else 0
  | none => 0

/-- Number of entries whose value carries a set `current` flag. -/
def curCount (files : Files) : Nat :=
  files.countP fun kv =>
    match kv.2 with
    | some i => i.current
    | none => false

/-- Invariant I2 of the spec: at most one entry is current. -/
def atMostOneCurrent (files : Files) : Prop := curCount files ≤ 1

/-! ## `Explorer` queries used by the mutations -/

/-- `Explorer.getCurrentFile`: scan in order, return `{content, path}` at
the first entry whose `current` flag is set (`current` left undefined, i.e.
falsy).  Reaching an entry that holds `undefined` first throws a
`TypeError` (`fileInfo.current` on `undefined`), modelled as
`Except.error ()`. -/
def getCurrentFile : Files → Except Unit (Option FullFile)
  | [] => Except.ok none
  | (path, some info) :: rest =>
    if info.current then Except.ok (some ⟨path, info.content, false⟩)
    else getCurrentFile rest
  | (_, none) :: _ => Except.error ()

/-- `Explorer.getTabs`: all entries whose `tabs` flag is set, in map order.
The loop dereferences every entry value, so any entry holding `undefined`
throws a `TypeError` and no list is returned. -/
def getTabs : Files → Except Unit (List FullFile)
  | [] => Except.ok []
  | (path, some info) :: rest =>
    match getTabs rest with
    | Except.ok tabs =>
      Except.ok (if info.tabs then ⟨path, info.content, info.current⟩ :: tabs
        else tabs)
    | Except.error e => Except.error e
  | (_, none) :: _ => Except.error ()

/-- The value `getCurrentFile` computes when no entry holds `undefined`
(proof-support characterization; `none`-valued entries are skipped, which
never happens on a `NoUndef` map). -/
def getCurrentFileP : Files → Option FullFile
  | [] => none
  | (path, some info) :: rest =>
    if info.current then some ⟨path, info.content, false⟩
    else getCurrentFileP rest
  | (_, none) :: rest => getCurrentFileP rest

/-- The value `getTabs` computes when no entry holds `undefined`
(proof-support characterization). -/
def getTabsP : Files → List FullFile
  | [] => []
  | (path, some info) :: rest =>
    if info.tabs then ⟨path, info.content, info.current⟩ :: getTabsP rest
    else getTabsP rest
  | (_, none) :: rest => getTabsP rest

/-! ## `Explorer` mutations -/

/-- The clearing statement of `Explorer.changeCurrentFile`
(`if (curFile) files[curFile.path].current = false`), given that
`getCurrentFile` returned without throwing. -/
def clearCurrent (files : Files) : Files :=
  match getCurrentFile files with
  | Except.ok (some curFile) =>
    match lookupF files curFile.path with
    | some info => setF files curFile.path (some { info with current := false })
    | none => files
  | _ => files

/-- `Explorer.changeCurrentFile`.

* `let curFile = this.getCurrentFile()` can throw a `TypeError` (an entry
  holding `undefined` before the first current one): the call aborts with no
  mutation made.
* `files[newPath].current = true` throws when `newPath` is not a key or
  holds `undefined`; the previous current file has already been cleared, so
  the state at the throw keeps that mutation.
* `const tabs = this.getTabs()` can throw (any entry holding `undefined`);
  both writes made before it are kept.
* The membership test `for (const path in tabs) if (path === newPath) return`
  iterates over the **array indices** `"0"`, `"1"`, … of `tabs`, not over the
  tab objects, so the early return fires only when `newPath` is literally such
  an index string; otherwise `files[newPath].tabs = true` always runs. -/
def changeCurrentFile (files : Files) (newPath : String) : Files :=
  match getCurrentFile files with
  | Except.error _ => files
  | Except.ok _ =>
    let files1 := clearCurrent files
    match lookupF files1 newPath with
    | none => files1
    | some info =>
      let files2 := setF files1 newPath (some { info with current := true })
      match getTabs files2 with
      | Except.error _ => files2
      | Except.ok tabs =>
        if (List.range tabs.length).any (fun i => toString i = newPath) then
          files2
        else
          -- `files[newPath].tabs = true` mutates the entry just written above
          setF files2 newPath (some { info with current := true, tabs := true })

/-- `Explorer.changeCurrentFileToTheLastTab`.  The `getTabs` call can throw
(entry holding `undefined`), aborting before any mutation. -/
def changeCurrentFileToTheLastTab (files : Files) : Files :=
  match getTabs files with
  | Except.error _ => files
  | Except.ok tabs =>
    match tabs.getLast? with
    | none => files
    | some lastTab => changeCurrentFile files lastTab.path

/-- `Explorer.removeFromTabs`.  `files[path].tabs = false` throws a
`TypeError` when `path` is not a key or holds `undefined`, before any
mutation happened. -/
def removeFromTabs (files : Files) (path : String) : Files :=
  match lookupF files path with
  | none => files
  | some info =>
    changeCurrentFileToTheLastTab
      (setF files path (some { info with tabs := false }))

/-- `Explorer.newItem`.  The `files[fullPath]` existence check is a
truthiness check, so a key holding `undefined` passes it and the assignment
then replaces that entry in place. -/
def newItem (files : Files) (fullPath : String) : Files × Option ItemError :=
  if !isItemNameValid (getItemNameFromPath fullPath) then
    (files, some ItemError.InvalidName)
  else
    match lookupF files fullPath with
    | some _ => (files, some ItemError.AlreadyExists)
    | none =>
      match getItemTypeFromPath fullPath with
      | ItemType.folder => (setF files fullPath (some emptyInfo), none)
      | ItemType.file =>
        let files1 := setF files fullPath (some ⟨some "", true, true⟩)
        (changeCurrentFile files1 fullPath, none)

/-- `Explorer.deleteItem`.  The cascade uses **raw string prefix** matching
(`path.startsWith(fullPath)`), the parent folder entry is written back
unconditionally, and an `src/` folder is added when the map would otherwise
hold a single entry.  `files[fullPath]?.current` uses optional chaining, so
an absent or `undefined`-holding key reads as not current. -/
def deleteItem (files : Files) (fullPath : String) : Files :=
  let isCurrentFile :=
    match lookupF files fullPath with
    | some info => info.current
    | none => false
  let files1 := files.filter fun kv => !strStartsWith kv.1 fullPath
  let parentPath := getParentPathFromPath fullPath
  let files2 := setF files1 parentPath (some emptyInfo)
  let files3 :=
    if files2.length == 1 then
      setF files2 (parentPath ++ "src/") (some emptyInfo)
    else files2
  if isCurrentFile then changeCurrentFileToTheLastTab files3 else files3

/-- One step of the folder-rename loop of `Explorer.renameItem`: rebuild the
path from its `'/'`-chunks, substituting `newName` for every chunk equal to
`oldName` and appending `"/"` after every chunk. -/
def renameSegments (oldName newName path : String) : String :=
  (splitOnSlashS path).foldl
    (fun newPath item =>
      if item = oldName then newPath ++ newName ++ "/"
      else newPath ++ item ++ "/")
    ""

/-- The folder branch of `Explorer.renameItem`: iterate over the snapshot of
keys (a snapshot key deleted before its visit is skipped by `for…in`; a key
holding `undefined` is visited and its `undefined` value moved like any
other), move each entry to its rebuilt path, and return `AlreadyExists` —
with all moves made so far kept — as soon as a rebuilt path is already a
truthy key. -/
def renameFolderLoop (oldName newName : String) :
    List String → Files → Files × Option ItemError
  | [], files => (files, none)
  | path :: rest, files =>
    if path ∈ keysF files then
      let newPath := renameSegments oldName newName path
      match lookupF files newPath with
      | some _ => (files, some ItemError.AlreadyExists)
      | none =>
        let data := lookupF files path
        renameFolderLoop oldName newName rest
          (setF (deleteF files path) newPath data)
    else renameFolderLoop oldName newName rest files

/-- `Explorer.renameItem`.  In the file branch, `const file = files[fullPath]`
is `undefined` when `fullPath` is not a (truthy) key, and
`files[newPath] = file` then stores `undefined` under `newPath`: the key is
created (or an `undefined`-holding key replaced in place) with value
`none`.  Later loops that dereference it throw a `TypeError`. -/
def renameItem (files : Files) (fullPath newName : String) :
    Files × Option ItemError :=
  if !isItemNameValid newName then (files, some ItemError.InvalidName)
  else
    match getItemTypeFromPath fullPath with
    | ItemType.file =>
      let parentFolder := getParentPathFromPath fullPath
      let newPath := parentFolder ++ newName
      match lookupF files newPath with
      | some _ => (files, some ItemError.AlreadyExists)
      | none =>
        let file := lookupF files fullPath
        (setF (deleteF files fullPath) newPath file, none)
    | ItemType.folder =>
      let oldName := getItemNameFromPath fullPath
      renameFolderLoop oldName newName (keysF files) files

/-- `Explorer.saveFile`: update the content of an entry that passes the
truthiness check, silently do nothing otherwise (absent key or key holding
`undefined`). -/
def saveFile (files : Files) (path content : String) : Files :=
  match lookupF files path with
  | some info => setF files path (some { info with content := some content })
  | none => files

/-- `Explorer.getFileContentFromPath` (`files[path]?.content`; optional
chaining, so no throw on `undefined`). -/
def getFileContentFromPath (files : Files) (path : String) : Option String :=
  (lookupF files path).bind ItemInfo.content

/-! ## Mutation operations as a step relation (for the invariant claims) -/

/-- The mutation surface of the explorer. -/
inductive Op
  | newItemOp (fullPath : String)
  | deleteItemOp (fullPath : String)
  | renameItemOp (fullPath newName : String)
  | saveFileOp (path content : String)
  | changeCurrentFileOp (newPath : String)
  | removeFromTabsOp (path : String)
  deriving DecidableEq, Repr

/-- The state after running one mutation (an error result, when any, is
reported to the caller; a thrown `TypeError` leaves the mutations made
before the throw). -/
def applyOp (files : Files) : Op → Files
  | Op.newItemOp p => (newItem files p).1
  | Op.deleteItemOp p => deleteItem files p
  | Op.renameItemOp p n => (renameItem files p n).1
  | Op.saveFileOp p c => saveFile files p c
  | Op.changeCurrentFileOp p => changeCurrentFile files p
  | Op.removeFromTabsOp p => removeFromTabs files p

/-! ## State-threaded translations of the query methods

The query methods contain no assignment to the map; their bodies are loops
over the key snapshot that read entries from the live map (and can throw a
`TypeError` on an entry holding `undefined`, which aborts the loop without
having written anything).  To state the frame property they are translated
statement by statement, threading the map through the loop explicitly. -/

/-- `Explorer.getFolderContent` (the loop reads only the keys, so it never
throws). -/
def getFolderContentS (files : Files) (path : String) : FolderListing × Files :=
  (keysF files).foldl
    (fun acc itemPath =>
      if hasSubstr itemPath path then
        let item :=
          (strSplit ((strSplit itemPath path).getD 1 "") "/").getD 0 ""
        if !acc.1.files.contains item && !acc.1.folders.contains item
            && item ≠ "" then
          if hasSubstr item "." then
            ({ acc.1 with files := acc.1.files ++ [item] }, acc.2)
          else
            ({ acc.1 with folders := acc.1.folders ++ [item] }, acc.2)
        else acc
      else acc)
    (⟨[], []⟩, files)

/-- `Explorer.getCurrentFile`, state-threaded (the early `return` and a
thrown `TypeError` both freeze the accumulated result). -/
def getCurrentFileS (files : Files) : Except Unit (Option FullFile) × Files :=
  (keysF files).foldl
    (fun acc path =>
      match acc.1 with
      | Except.error _ => acc
      | Except.ok (some _) => acc
      | Except.ok none =>
        match lookupF acc.2 path with
        | some info =>
          if info.current then
            (Except.ok (some ⟨path, info.content, false⟩), acc.2)
          else acc
        | none => (Except.error (), acc.2))
    (Except.ok none, files)

/-- `Explorer.getTabs`, state-threaded. -/
def getTabsS (files : Files) : Except Unit (List FullFile) × Files :=
  (keysF files).foldl
    (fun acc path =>
      match acc.1 with
      | Except.error _ => acc
      | Except.ok tabs =>
        match lookupF acc.2 path with
        | some info =>
          if info.tabs then
            (Except.ok (tabs ++ [⟨path, info.content, info.current⟩]), acc.2)
          else acc
        | none => (Except.error (), acc.2))
    (Except.ok [], files)

/-- `Explorer.getBuildFiles`, state-threaded (`content` is pushed only when
truthy, i.e. present and non-empty; the dereference throws on an entry
holding `undefined`). -/
def getBuildFilesS (files : Files) :
    Except Unit (List (String × String)) × Files :=
  (keysF files).foldl
    (fun acc path =>
      match acc.1 with
      | Except.error _ => acc
      | Except.ok build =>
        match lookupF acc.2 path with
        | some info =>
          match info.content with
          | some c => if c ≠ "" then (Except.ok (build ++ [(path, c)]), acc.2)
              else acc
          | none => acc
        | none => (Except.error (), acc.2))
    (Except.ok [], files)

/-- `Explorer.getFileContentFromPath`, state-threaded. -/
def getFileContentFromPathS (files : Files) (path : String) :
    Option String × Files :=
  ((lookupF files path).bind ItemInfo.content, files)

/-! ## Lemmas about the map primitives -/

theorem keysF_cons (kv : String × Option ItemInfo) (rest : Files) :
    keysF (kv :: rest) = kv.1 :: keysF rest := rfl

theorem keysF_append (l₁ l₂ : Files) :
    keysF (l₁ ++ l₂) = keysF l₁ ++ keysF l₂ := by
  simp [keysF]

theorem wf_cons {k' : String} {v' : Option ItemInfo} {rest : Files} :
    Wf ((k', v') :: rest) ↔ k' ∉ keysF rest ∧ Wf rest := by
  unfold Wf keysF
  rw [List.map_cons, List.nodup_cons]

theorem lookupF_of_not_key {files : Files} {k : String}
    (h : k ∉ keysF files) : lookupF files k = none := by
  induction files with
  | nil => rfl
  | cons kv rest ih =>
    obtain ⟨k', v⟩ := kv
    rw [keysF_cons, List.mem_cons] at h
    push_neg at h
    have hne : ¬k' = k := fun he => h.1 he.symm
    simp [lookupF, hne]
    exact ih h.2

theorem lookupF_some_key {files : Files} {k : String} {i : ItemInfo}
    (h : lookupF files k = some i) : k ∈ keysF files := by
  induction files with
  | nil => simp [lookupF] at h
  | cons kv rest ih =>
    obtain ⟨k', v⟩ := kv
    by_cases hk : k' = k
    · subst hk
      simp [keysF]
    · simp [lookupF, hk] at h
      rw [keysF_cons]
      exact List.mem_cons_of_mem _ (ih h)

theorem lookupF_mem {files : Files} {k : String} {i : ItemInfo}
    (h : lookupF files k = some i) : (k, some i) ∈ files := by
  induction files with
  | nil => simp [lookupF] at h
  | cons kv rest ih =>
    obtain ⟨k', v⟩ := kv
    by_cases hk : k' = k
    · subst hk
      simp [lookupF] at h
      simp [h]
    · simp [lookupF, hk] at h
      exact List.mem_cons_of_mem _ (ih h)

theorem lookup_of_mem_wf {files : Files} {k : String} {v : Option ItemInfo}
    (hw : Wf files) (h : (k, v) ∈ files) : lookupF files k = v := by
  induction files with
  | nil => simp at h
  | cons kv rest ih =>
    obtain ⟨k', v'⟩ := kv
    rw [wf_cons] at hw
    rcases List.mem_cons.mp h with h | h
    · cases h
      simp [lookupF]
    · have hne : k' ≠ k := by
        intro he
        subst he
        exact hw.1 (List.mem_map_of_mem Prod.fst h)
      simp [lookupF, hne]
      exact ih hw.2 h

theorem lookupF_setF_self (files : Files) (k : String) (v : Option ItemInfo) :
    lookupF (setF files k v) k = v := by
  induction files with
  | nil => simp [setF, lookupF]
  | cons kv rest ih =>
    obtain ⟨k', v'⟩ := kv
    by_cases hk : k' = k <;> simp [setF, lookupF, hk, ih]

theorem lookupF_setF_ne (files : Files) {k' k : String} (v : Option ItemInfo)
    (h : k' ≠ k) : lookupF (setF files k v) k' = lookupF files k' := by
  have hne : ¬k = k' := fun he => h he.symm
  induction files with
  | nil => simp [setF, lookupF, hne]
  | cons kv rest ih =>
    obtain ⟨k₀, v₀⟩ := kv
    by_cases hk : k₀ = k
    · subst hk
      simp [setF, lookupF, hne]
    · simp [setF, lookupF, hk, ih]

theorem setF_same {files : Files} {k : String} {i : ItemInfo}
    (h : lookupF files k = some i) : setF files k (some i) = files := by
  induction files with
  | nil => simp [lookupF] at h
  | cons kv rest ih =>
    obtain ⟨k', v'⟩ := kv
    by_cases hk : k' = k
    · subst hk
      simp [lookupF] at h
      simp [setF, h]
    · simp [lookupF, hk] at h
      simp [setF, hk, ih h]

theorem setF_setF (files : Files) (k : String) (a b : Option ItemInfo) :
    setF (setF files k a) k b = setF files k b := by
  induction files with
  | nil => simp [setF]
  | cons kv rest ih =>
    obtain ⟨k', v'⟩ := kv
    by_cases hk : k' = k <;> simp [setF, hk, ih]

theorem setF_of_not_key {files : Files} {k : String}
    (h : k ∉ keysF files) (v : Option ItemInfo) :
    setF files k v = files ++ [(k, v)] := by
  induction files with
  | nil => simp [setF]
  | cons kv rest ih =>
    obtain ⟨k', v'⟩ := kv
    rw [keysF_cons, List.mem_cons] at h
    push_neg at h
    have hne : ¬k' = k := fun he => h.1 he.symm
    simp [setF, hne, ih h.2]

theorem keysF_setF_of_key {files : Files} {k : String} (v : Option ItemInfo)
    (h : k ∈ keysF files) :
    keysF (setF files k v) = keysF files := by
  induction files with
  | nil => simp [keysF] at h
  | cons kv rest ih =>
    obtain ⟨k', v'⟩ := kv
    by_cases hk : k' = k
    · subst hk
      simp [setF, keysF]
    · rw [keysF_cons, List.mem_cons] at h
      rcases h with h | h
      · exact absurd h.symm hk
      · simp only [setF, if_neg hk, keysF_cons]
        rw [ih h]

theorem mem_setF {files : Files} {k : String} {v : Option ItemInfo}
    {kv : String × Option ItemInfo} (h : kv ∈ setF files k v) :
    kv = (k, v) ∨ kv ∈ files := by
  induction files with
  | nil => simp [setF] at h; simp [h]
  | cons kv₀ rest ih =>
    obtain ⟨k₀, v₀⟩ := kv₀
    by_cases hk : k₀ = k
    · subst hk
      simp [setF] at h
      rcases h with h | h
      · exact Or.inl (by simp [h])
      · exact Or.inr (List.mem_cons_of_mem _ h)
    · simp [setF, hk] at h
      rcases h with h | h
      · exact Or.inr (by simp [h])
      · rcases ih h with h | h
        · exact Or.inl h
        · exact Or.inr (List.mem_cons_of_mem _ h)

theorem wf_append_single {files : Files} {k : String} (v : Option ItemInfo)
    (hw : Wf files) (hk : k ∉ keysF files) : Wf (files ++ [(k, v)]) := by
  induction files with
  | nil => simp [Wf, keysF]
  | cons kv rest ih =>
    obtain ⟨k₀, v₀⟩ := kv
    rw [wf_cons] at hw
    rw [keysF_cons, List.mem_cons] at hk
    push_neg at hk
    rw [List.cons_append, wf_cons]
    refine ⟨?_, ih hw.2 hk.2⟩
    rw [keysF_append, List.mem_append]
    rintro (hm | hm)
    · exact hw.1 hm
    · simp [keysF] at hm
      exact hk.1 hm.symm

theorem wf_setF {files : Files} (k : String) (v : Option ItemInfo)
    (hw : Wf files) : Wf (setF files k v) := by
  by_cases hk : k ∈ keysF files
  · unfold Wf
    rw [keysF_setF_of_key v hk]
    exact hw
  · rw [setF_of_not_key hk]
    exact wf_append_single v hw hk

theorem keysF_deleteF (files : Files) (k : String) :
    keysF (deleteF files k) = (keysF files).filter (fun s => s ≠ k) := by
  induction files with
  | nil => rfl
  | cons kv rest ih =>
    obtain ⟨k', v'⟩ := kv
    by_cases hk : k' = k <;> simp [deleteF, keysF, hk] at ih ⊢ <;> simpa [hk] using ih

theorem wf_filter {files : Files} (p : String × Option ItemInfo → Bool)
    (hw : Wf files) : Wf (files.filter p) := by
  unfold Wf keysF at hw ⊢
  exact hw.sublist ((List.filter_sublist files).map Prod.fst)

theorem wf_deleteF {files : Files} (k : String) (hw : Wf files) :
    Wf (deleteF files k) := wf_filter _ hw

theorem lookupF_isSome_setF_some {files : Files} {k : String}
    (k' : String) (v : ItemInfo) (h : (lookupF files k).isSome) :
    (lookupF (setF files k' (some v)) k).isSome := by
  by_cases hk : k = k'
  · subst hk
    simp [lookupF_setF_self]
  · rw [lookupF_setF_ne files (some v) hk]
    exact h

/-! ## Lemmas about the current-flag count -/

theorem curCount_nil : curCount [] = 0 := rfl

theorem curCount_cons (kv : String × Option ItemInfo) (rest : Files) :
    curCount (kv :: rest) = curCount rest + curOne kv.2 := by
  obtain ⟨k, v⟩ := kv
  cases v <;> simp [curCount, curOne, List.countP_cons]

theorem curCount_append (l₁ l₂ : Files) :
    curCount (l₁ ++ l₂) = curCount l₁ + curCount l₂ := by
  simp [curCount, List.countP_append]

theorem curOne_le_one (v : Option ItemInfo) : curOne v ≤ 1 := by
  cases v with
  | none => simp [curOne]
  | some i => by_cases hc : i.current <;> simp [curOne, hc]

theorem curCount_pos_of_mem {files : Files} {k : String} {i : ItemInfo}
    (hm : (k, some i) ∈ files) (hc : i.current = true) :
    1 ≤ curCount files := by
  unfold curCount
  have : 0 < List.countP
      (fun kv => match kv.2 with | some i => i.current | none => false) files :=
    List.countP_pos_iff.mpr ⟨(k, some i), hm, by simp [hc]⟩
  omega

theorem curCount_setF_entry {files : Files} {k : String} {w : Option ItemInfo}
    (hw : Wf files) (hm : (k, w) ∈ files) (v : Option ItemInfo) :
    curCount (setF files k v) + curOne w = curCount files + curOne v := by
  induction files with
  | nil => simp at hm
  | cons kv rest ih =>
    obtain ⟨k₀, w₀⟩ := kv
    rw [wf_cons] at hw
    rcases List.mem_cons.mp hm with hm | hm
    · cases hm
      simp [setF, curCount_cons]
      omega
    · have hk : k₀ ≠ k := by
        intro he
        subst he
        exact hw.1 (List.mem_map_of_mem Prod.fst hm)
      simp [setF, hk, curCount_cons]
      have := ih hw.2 hm
      omega

theorem curCount_setF_not_key {files : Files} {k : String}
    (h : k ∉ keysF files) (v : Option ItemInfo) :
    curCount (setF files k v) = curCount files + curOne v := by
  rw [setF_of_not_key h v, curCount_append, curCount_cons, curCount_nil]
  simp

theorem curCount_setF_same_current {files : Files} {k : String}
    {w v : Option ItemInfo} (hw : Wf files) (hm : (k, w) ∈ files)
    (hv : curOne v = curOne w) :
    curCount (setF files k v) = curCount files := by
  have h2 := curCount_setF_entry hw hm v
  omega

/-! ## Lemmas about the pure query characterisations -/

theorem getCurrentFileP_eq_none_iff (files : Files) :
    getCurrentFileP files = none ↔ curCount files = 0 := by
  induction files with
  | nil => simp [getCurrentFileP, curCount_nil]
  | cons kv rest ih =>
    obtain ⟨p, v⟩ := kv
    rw [curCount_cons]
    cases v with
    | none => simpa [getCurrentFileP, curOne] using ih
    | some info =>
      by_cases hc : info.current <;>
        simp [getCurrentFileP, curOne, hc, ih]

theorem getCurrentFileP_mem {files : Files} {cf : FullFile}
    (h : getCurrentFileP files = some cf) :
    ∃ info : ItemInfo, (cf.path, some info) ∈ files ∧ info.current = true ∧
      cf.content = info.content ∧ cf.current = false := by
  induction files with
  | nil => simp [getCurrentFileP] at h
  | cons kv rest ih =>
    obtain ⟨p, v⟩ := kv
    cases v with
    | none =>
      simp only [getCurrentFileP] at h
      obtain ⟨info, hm, hrest⟩ := ih h
      exact ⟨info, List.mem_cons_of_mem _ hm, hrest⟩
    | some info =>
      by_cases hc : info.current
      · simp [getCurrentFileP, hc] at h
        subst h
        exact ⟨info, List.mem_cons_self _ _, hc, rfl, rfl⟩
      · simp only [getCurrentFileP, if_neg hc] at h
        obtain ⟨info', hm, hrest⟩ := ih h
        exact ⟨info', List.mem_cons_of_mem _ hm, hrest⟩

theorem getCurrentFileP_lookup {files : Files} {cf : FullFile}
    (hw : Wf files) (h : getCurrentFileP files = some cf) :
    ∃ info : ItemInfo, lookupF files cf.path = some info ∧
      info.current = true := by
  obtain ⟨info, hm, hc, _, _⟩ := getCurrentFileP_mem h
  exact ⟨info, lookup_of_mem_wf hw hm, hc⟩

theorem getCurrentFileP_unique {files : Files} {k : String} {j : ItemInfo}
    (hcount : curCount files = 1) (hm : (k, some j) ∈ files)
    (hj : j.current = true) :
    getCurrentFileP files = some ⟨k, j.content, false⟩ := by
  induction files with
  | nil => simp at hm
  | cons kv rest ih =>
    obtain ⟨p, v⟩ := kv
    rw [curCount_cons] at hcount
    rcases List.mem_cons.mp hm with hm' | hm'
    · cases hm'
      simp [getCurrentFileP, hj]
    · clear hm
      rename' hm' => hm
      cases v with
      | none =>
        simp only [curOne] at hcount
        simp only [getCurrentFileP]
        exact ih (by omega) hm
      | some info =>
        have h1 : 1 ≤ curCount rest := by
          unfold curCount
          have : 0 < List.countP
              (fun kv => match kv.2 with
                | some i => i.current | none => false) rest :=
            List.countP_pos_iff.mpr ⟨(k, some j), hm, by simp [hj]⟩
          omega
        have hc : info.current = false := by
          rcases hcur : info.current with _ | _
          · rfl
          · simp only [curOne, hcur, if_pos] at hcount
            omega
        simp only [curOne, hc] at hcount
        simp only [getCurrentFileP, hc, if_neg Bool.false_ne_true]
        exact ih (by omega) hm

theorem mem_getTabsP_of {files : Files} {k : String} {i : ItemInfo}
    (hm : (k, some i) ∈ files) (ht : i.tabs = true) :
    (⟨k, i.content, i.current⟩ : FullFile) ∈ getTabsP files := by
  induction files with
  | nil => simp at hm
  | cons kv rest ih =>
    obtain ⟨p, v⟩ := kv
    rcases List.mem_cons.mp hm with hm' | hm'
    · cases hm'
      simp [getTabsP, ht]
    · clear hm
      rename' hm' => hm
      cases v with
      | none => simpa [getTabsP] using ih hm
      | some info =>
        by_cases hti : info.tabs <;> simp [getTabsP, hti, ih hm]

theorem getTabsP_mem {files : Files} {ff : FullFile}
    (h : ff ∈ getTabsP files) :
    (ff.path, some (⟨ff.content, ff.current, true⟩ : ItemInfo)) ∈ files := by
  induction files with
  | nil => simp [getTabsP] at h
  | cons kv rest ih =>
    obtain ⟨p, v⟩ := kv
    cases v with
    | none =>
      simp only [getTabsP] at h
      exact List.mem_cons_of_mem _ (ih h)
    | some info =>
      by_cases hti : info.tabs
      · simp only [getTabsP, if_pos hti] at h
        rcases List.mem_cons.mp h with h | h
        · subst h
          simp only [List.mem_cons]
          left
          simp [← hti]
        · exact List.mem_cons_of_mem _ (ih h)
      · simp only [getTabsP, if_neg hti] at h
        exact List.mem_cons_of_mem _ (ih h)

theorem getTabsP_lookup {files : Files} {ff : FullFile}
    (hw : Wf files) (h : ff ∈ getTabsP files) :
    lookupF files ff.path = some ⟨ff.content, ff.current, true⟩ :=
  lookup_of_mem_wf hw (getTabsP_mem h)

theorem tabsPaths_setF {files : Files} {k : String} {w : ItemInfo}
    (h : lookupF files k = some w) {v : ItemInfo} (ht : v.tabs = w.tabs) :
    (getTabsP (setF files k (some v))).map FullFile.path =
      (getTabsP files).map FullFile.path := by
  induction files with
  | nil => simp [lookupF] at h
  | cons kv rest ih =>
    obtain ⟨k₀, v₀⟩ := kv
    by_cases hk : k₀ = k
    · subst hk
      simp only [lookupF, if_pos rfl] at h
      subst h
      simp only [setF, if_pos rfl]
      by_cases htw : w.tabs
      · simp [getTabsP, htw, ht ▸ htw]
      · simp [getTabsP, htw, ht ▸ htw]
    · simp only [lookupF, if_neg hk] at h
      cases v₀ with
      | none => simp only [setF, if_neg hk, getTabsP]; exact ih h
      | some info =>
        by_cases hti : info.tabs <;>
          simp [setF, hk, getTabsP, hti, ih h]

theorem mem_of_getLast_eq {l : List FullFile} {x : FullFile}
    (h : l.getLast? = some x) : x ∈ l := by
  obtain ⟨hne, hx⟩ := List.mem_getLast?_eq_getLast h
  rw [hx]
  exact List.getLast_mem hne

/-! ## Lemmas about undefined-free maps -/

theorem noundef_cons {k : String} {v : Option ItemInfo} {rest : Files} :
    NoUndef ((k, v) :: rest) ↔ v ≠ none ∧ NoUndef rest := by
  unfold NoUndef
  constructor
  · intro h
    exact ⟨h (k, v) (List.mem_cons_self _ _),
      fun kv hkv => h kv (List.mem_cons_of_mem _ hkv)⟩
  · rintro ⟨h1, h2⟩ kv hkv
    rcases List.mem_cons.mp hkv with h | h
    · cases h
      exact h1
    · exact h2 kv h

theorem noundef_setF_some {files : Files} (k : String) (i : ItemInfo)
    (hn : NoUndef files) : NoUndef (setF files k (some i)) := by
  intro kv hkv
  rcases mem_setF hkv with he | hm
  · rw [he]
    simp
  · exact hn kv hm

theorem noundef_filter {files : Files} (p : String × Option ItemInfo → Bool)
    (hn : NoUndef files) : NoUndef (files.filter p) :=
  fun kv hkv => hn kv (List.mem_of_mem_filter hkv)

theorem noundef_of_getTabs_ok {files : Files} {tabs : List FullFile}
    (h : getTabs files = Except.ok tabs) : NoUndef files := by
  induction files generalizing tabs with
  | nil => intro kv hkv; simp at hkv
  | cons kv rest ih =>
    obtain ⟨p, v⟩ := kv
    cases v with
    | none => simp [getTabs] at h
    | some info =>
      rw [noundef_cons]
      refine ⟨by simp, ?_⟩
      simp only [getTabs] at h
      rcases hr : getTabs rest with e | tr
      · rw [hr] at h
        simp at h
      · exact ih hr

theorem getTabs_of_noundef {files : Files} (hn : NoUndef files) :
    getTabs files = Except.ok (getTabsP files) := by
  induction files with
  | nil => rfl
  | cons kv rest ih =>
    obtain ⟨p, v⟩ := kv
    cases v with
    | none =>
      exact absurd (noundef_cons.mp hn).1 (by simp)
    | some info =>
      have := ih (noundef_cons.mp hn).2
      simp [getTabs, getTabsP, this]

theorem getCurrentFile_of_noundef {files : Files} (hn : NoUndef files) :
    getCurrentFile files = Except.ok (getCurrentFileP files) := by
  induction files with
  | nil => rfl
  | cons kv rest ih =>
    obtain ⟨p, v⟩ := kv
    cases v with
    | none =>
      exact absurd (noundef_cons.mp hn).1 (by simp)
    | some info =>
      have := ih (noundef_cons.mp hn).2
      by_cases hc : info.current <;>
        simp [getCurrentFile, getCurrentFileP, hc, this]

theorem getTabs_ok_val {files : Files} {tabs : List FullFile}
    (h : getTabs files = Except.ok tabs) : tabs = getTabsP files := by
  have hn := noundef_of_getTabs_ok h
  rw [getTabs_of_noundef hn] at h
  injection h with h
  exact h.symm

theorem getCurrentFile_some_mem {files : Files} {cf : FullFile}
    (h : getCurrentFile files = Except.ok (some cf)) :
    ∃ info : ItemInfo, (cf.path, some info) ∈ files ∧ info.current = true ∧
      cf.content = info.content ∧ cf.current = false := by
  induction files with
  | nil => simp [getCurrentFile] at h
  | cons kv rest ih =>
    obtain ⟨p, v⟩ := kv
    cases v with
    | none => simp [getCurrentFile] at h
    | some info =>
      by_cases hc : info.current
      · simp [getCurrentFile, hc] at h
        subst h
        exact ⟨info, List.mem_cons_self _ _, hc, rfl, rfl⟩
      · simp only [getCurrentFile, if_neg hc] at h
        obtain ⟨info', hm, hrest⟩ := ih h
        exact ⟨info', List.mem_cons_of_mem _ hm, hrest⟩

/-! ## Lemmas about clearing and changing the current file -/

theorem clearCurrent_of_error {files : Files} {e : Unit}
    (h : getCurrentFile files = Except.error e) :
    clearCurrent files = files := by
  unfold clearCurrent
  simp only [h]

theorem clearCurrent_of_ok_none {files : Files}
    (h : getCurrentFile files = Except.ok none) :
    clearCurrent files = files := by
  unfold clearCurrent
  simp only [h]

theorem clearCurrent_of_ok_some {files : Files} {cf : FullFile}
    {info : ItemInfo} (h : getCurrentFile files = Except.ok (some cf))
    (hl : lookupF files cf.path = some info) :
    clearCurrent files =
      setF files cf.path (some { info with current := false }) := by
  unfold clearCurrent
  simp only [h, hl]

theorem clearCurrent_cases (files : Files) :
    clearCurrent files = files ∨
    ∃ cf info, getCurrentFile files = Except.ok (some cf) ∧
      lookupF files cf.path = some info ∧
      clearCurrent files =
        setF files cf.path (some { info with current := false }) := by
  rcases hgc : getCurrentFile files with e | c
  · exact Or.inl (clearCurrent_of_error hgc)
  · rcases c with _ | cf
    · exact Or.inl (clearCurrent_of_ok_none hgc)
    · rcases hl : lookupF files cf.path with _ | info
      · left
        unfold clearCurrent
        simp only [hgc, hl]
      · exact Or.inr ⟨cf, info, rfl, hl, clearCurrent_of_ok_some hgc hl⟩

theorem clearCurrent_wf {files : Files} (hw : Wf files) :
    Wf (clearCurrent files) := by
  rcases clearCurrent_cases files with h | ⟨cf, info, -, -, h⟩ <;> rw [h]
  · exact hw
  · exact wf_setF _ _ hw

theorem noundef_clearCurrent {files : Files} (hn : NoUndef files) :
    NoUndef (clearCurrent files) := by
  rcases clearCurrent_cases files with h | ⟨cf, info, -, -, h⟩ <;> rw [h]
  · exact hn
  · exact noundef_setF_some _ _ hn

theorem clearCurrent_lookup_fields {files : Files} {k : String} {v : ItemInfo}
    (h : lookupF files k = some v) :
    ∃ r : ItemInfo, lookupF (clearCurrent files) k = some r ∧
      r.content = v.content ∧ r.tabs = v.tabs := by
  rcases clearCurrent_cases files with hc | ⟨cf, info, -, hl, hc⟩
  · exact ⟨v, by rw [hc]; exact h, rfl, rfl⟩
  · rw [hc]
    by_cases hk : cf.path = k
    · subst hk
      rw [h] at hl
      injection hl with hl
      subst hl
      exact ⟨{ v with current := false }, lookupF_setF_self _ _ _, rfl, rfl⟩
    · rw [lookupF_setF_ne _ _ (fun he => hk he.symm)]
      exact ⟨v, h, rfl, rfl⟩

theorem clearCurrent_isSome {files : Files} {k : String}
    (h : (lookupF files k).isSome) :
    (lookupF (clearCurrent files) k).isSome := by
  rcases hv : lookupF files k with _ | v
  · rw [hv] at h
    simp at h
  · obtain ⟨r, hr, -, -⟩ := clearCurrent_lookup_fields hv
    simp [hr]

theorem clearCurrent_count_some {files : Files} {cf : FullFile}
    (hw : Wf files) (hgc : getCurrentFile files = Except.ok (some cf)) :
    curCount (clearCurrent files) + 1 = curCount files := by
  obtain ⟨info, hm, hcur, -, -⟩ := getCurrentFile_some_mem hgc
  have hl : lookupF files cf.path = some info := lookup_of_mem_wf hw hm
  rw [clearCurrent_of_ok_some hgc hl]
  have h2 := curCount_setF_entry hw hm (some { info with current := false })
  simp [curOne, hcur] at h2
  omega

theorem clearCurrent_count_zero {files : Files} (hw : Wf files)
    (hn : NoUndef files) (hc : curCount files ≤ 1) :
    curCount (clearCurrent files) = 0 := by
  rcases hg : getCurrentFileP files with _ | cf
  · rw [clearCurrent_of_ok_none (by rw [getCurrentFile_of_noundef hn, hg])]
    exact (getCurrentFileP_eq_none_iff files).mp hg
  · have hgc : getCurrentFile files = Except.ok (some cf) := by
      rw [getCurrentFile_of_noundef hn, hg]
    have := clearCurrent_count_some hw hgc
    omega

theorem clearCurrent_tabsPaths (files : Files) :
    (getTabsP (clearCurrent files)).map FullFile.path =
      (getTabsP files).map FullFile.path := by
  rcases clearCurrent_cases files with h | ⟨cf, info, -, hl, h⟩ <;> rw [h]
  exact tabsPaths_setF hl rfl

theorem ccf_of_error {files : Files} {e : Unit} (p : String)
    (h : getCurrentFile files = Except.error e) :
    changeCurrentFile files p = files := by
  unfold changeCurrentFile
  simp only [h]

theorem ccf_of_ok_lookup_none {files : Files} {c : Option FullFile}
    {p : String} (hok : getCurrentFile files = Except.ok c)
    (hl : lookupF (clearCurrent files) p = none) :
    changeCurrentFile files p = clearCurrent files := by
  unfold changeCurrentFile
  simp only [hok, hl]

theorem ccf_shape {files : Files} {p : String} {info : ItemInfo}
    (c : Option FullFile) (hok : getCurrentFile files = Except.ok c)
    (hl : lookupF (clearCurrent files) p = some info) :
    ∃ b : Bool, (info.tabs = true → b = true) ∧
      changeCurrentFile files p =
        setF (clearCurrent files) p (some ⟨info.content, true, b⟩) := by
  unfold changeCurrentFile
  simp only [hok, hl]
  rcases hgt : getTabs
      (setF (clearCurrent files) p (some { info with current := true }))
    with e | tabs
  · exact ⟨info.tabs, fun h => h, rfl⟩
  · simp only []
    by_cases hq :
      ((List.range tabs.length).any fun i => decide (toString i = p)) = true
    · rw [if_pos hq]
      exact ⟨info.tabs, fun h => h, rfl⟩
    · rw [if_neg hq]
      refine ⟨true, fun _ => rfl, ?_⟩
      rw [setF_setF]

theorem ccf_wf {files : Files} (p : String) (hw : Wf files) :
    Wf (changeCurrentFile files p) := by
  rcases hgc : getCurrentFile files with e | c
  · rw [ccf_of_error p hgc]
    exact hw
  · rcases hl : lookupF (clearCurrent files) p with _ | info
    · rw [ccf_of_ok_lookup_none hgc hl]
      exact clearCurrent_wf hw
    · obtain ⟨b, -, hEq⟩ := ccf_shape c hgc hl
      rw [hEq]
      exact wf_setF _ _ (clearCurrent_wf hw)

theorem noundef_ccf {files : Files} (p : String) (hn : NoUndef files) :
    NoUndef (changeCurrentFile files p) := by
  have hok := getCurrentFile_of_noundef hn
  rcases hl : lookupF (clearCurrent files) p with _ | info
  · rw [ccf_of_ok_lookup_none hok hl]
    exact noundef_clearCurrent hn
  · obtain ⟨b, -, hEq⟩ := ccf_shape _ hok hl
    rw [hEq]
    exact noundef_setF_some _ _ (noundef_clearCurrent hn)

theorem ccf_count_le {files : Files} (p : String) (hw : Wf files)
    (hn : NoUndef files) (hc : curCount files ≤ 1) :
    curCount (changeCurrentFile files p) ≤ 1 := by
  have h0 := clearCurrent_count_zero hw hn hc
  have hok := getCurrentFile_of_noundef hn
  rcases hl : lookupF (clearCurrent files) p with _ | info
  · rw [ccf_of_ok_lookup_none hok hl]
    omega
  · obtain ⟨b, -, hEq⟩ := ccf_shape _ hok hl
    rw [hEq]
    have h2 := curCount_setF_entry (clearCurrent_wf hw) (lookupF_mem hl)
      (some (⟨info.content, true, b⟩ : ItemInfo))
    simp [curOne] at h2
    omega

theorem ccf_count_eq_one {files : Files} {p : String} (hw : Wf files)
    (hn : NoUndef files) (hc : curCount files ≤ 1)
    (hp : (lookupF files p).isSome) :
    curCount (changeCurrentFile files p) = 1 := by
  have hle := ccf_count_le p hw hn hc
  have hok := getCurrentFile_of_noundef hn
  have hp1 := clearCurrent_isSome hp
  rcases hl : lookupF (clearCurrent files) p with _ | info
  · rw [hl] at hp1
    simp at hp1
  · obtain ⟨b, -, hEq⟩ := ccf_shape _ hok hl
    have hself : lookupF (changeCurrentFile files p) p
        = some ⟨info.content, true, b⟩ := by
      rw [hEq]
      exact lookupF_setF_self _ _ _
    have hpos := curCount_pos_of_mem (lookupF_mem hself) rfl
    omega

theorem ccf_lookup_target {files : Files} {p : String} {w : ItemInfo}
    (hn : NoUndef files) (hlp : lookupF files p = some w) :
    ∃ j : ItemInfo, lookupF (changeCurrentFile files p) p = some j ∧
      j.current = true ∧ j.content = w.content ∧
      (w.tabs = true → j.tabs = true) := by
  obtain ⟨r, hr, hrc, hrt⟩ := clearCurrent_lookup_fields hlp
  have hok := getCurrentFile_of_noundef hn
  obtain ⟨b, hb, hEq⟩ := ccf_shape _ hok hr
  refine ⟨⟨r.content, true, b⟩, ?_, rfl, hrc, ?_⟩
  · rw [hEq]
    exact lookupF_setF_self _ _ _
  · intro hw
    exact hb (hrt.trans hw)

theorem ccf_lookup_other {files : Files} {p k : String} {v : ItemInfo}
    (hn : NoUndef files) (hk : k ≠ p) (hlk : lookupF files k = some v) :
    ∃ r : ItemInfo, lookupF (changeCurrentFile files p) k = some r ∧
      r.content = v.content ∧ r.tabs = v.tabs := by
  obtain ⟨r, hr, hrc, hrt⟩ := clearCurrent_lookup_fields hlk
  have hok := getCurrentFile_of_noundef hn
  rcases hl : lookupF (clearCurrent files) p with _ | info
  · rw [ccf_of_ok_lookup_none hok hl]
    exact ⟨r, hr, hrc, hrt⟩
  · obtain ⟨b, -, hEq⟩ := ccf_shape _ hok hl
    rw [hEq, lookupF_setF_ne _ _ hk]
    exact ⟨r, hr, hrc, hrt⟩

theorem ccf_isSome {files : Files} {k : String} (p : String)
    (h : (lookupF files k).isSome) :
    (lookupF (changeCurrentFile files p) k).isSome := by
  rcases hgc : getCurrentFile files with e | c
  · rw [ccf_of_error p hgc]
    exact h
  · have h1 := clearCurrent_isSome h
    rcases hl : lookupF (clearCurrent files) p with _ | info
    · rw [ccf_of_ok_lookup_none hgc hl]
      exact h1
    · obtain ⟨b, -, hEq⟩ := ccf_shape c hgc hl
      rw [hEq]
      exact lookupF_isSome_setF_some p ⟨info.content, true, b⟩ h1

theorem ccf_tabsPaths {files : Files} {p : String} {w : ItemInfo}
    (hn : NoUndef files) (hlp : lookupF files p = some w)
    (ht : w.tabs = true) :
    (getTabsP (changeCurrentFile files p)).map FullFile.path =
      (getTabsP files).map FullFile.path := by
  obtain ⟨r, hr, -, hrt⟩ := clearCurrent_lookup_fields hlp
  have hok := getCurrentFile_of_noundef hn
  obtain ⟨b, hb, hEq⟩ := ccf_shape _ hok hr
  have hbt : b = true := hb (hrt.trans ht)
  rw [hEq, hbt]
  have h1 : ((⟨r.content, true, true⟩ : ItemInfo)).tabs = r.tabs :=
    (hrt.trans ht).symm
  rw [tabsPaths_setF hr h1, clearCurrent_tabsPaths]

theorem cctlt_of_error {files : Files} {e : Unit}
    (h : getTabs files = Except.error e) :
    changeCurrentFileToTheLastTab files = files := by
  unfold changeCurrentFileToTheLastTab
  simp only [h]

theorem cctlt_of_empty {files : Files}
    (h : getTabs files = Except.ok []) :
    changeCurrentFileToTheLastTab files = files := by
  unfold changeCurrentFileToTheLastTab
  simp only [h, List.getLast?_nil]

theorem cctlt_of_last {files : Files} {tabs : List FullFile} {L : FullFile}
    (h : getTabs files = Except.ok tabs) (hl : tabs.getLast? = some L) :
    changeCurrentFileToTheLastTab files = changeCurrentFile files L.path := by
  unfold changeCurrentFileToTheLastTab
  simp only [h, hl]

theorem cctlt_isSome {files : Files} {k : String}
    (h : (lookupF files k).isSome) :
    (lookupF (changeCurrentFileToTheLastTab files) k).isSome := by
  rcases hgt : getTabs files with e | tabs
  · rw [cctlt_of_error hgt]
    exact h
  · rcases hgl : tabs.getLast? with _ | L
    · rw [List.getLast?_eq_none_iff] at hgl
      subst hgl
      rw [cctlt_of_empty hgt]
      exact h
    · rw [cctlt_of_last hgt hgl]
      exact ccf_isSome L.path h

theorem removeFromTabs_eq {files : Files} {p : String} {i : ItemInfo}
    (h : lookupF files p = some i) :
    removeFromTabs files p =
      changeCurrentFileToTheLastTab
        (setF files p (some { i with tabs := false })) := by
  unfold removeFromTabs
  simp only [h]

theorem item_set_tabs_false_eq {i : ItemInfo} (h : i.tabs = false) :
    ({ i with tabs := false } : ItemInfo) = i := by
  cases i
  simp_all

theorem ccf_fixed {r : Files} {Lp : String} {j : ItemInfo}
    (hn : NoUndef r)
    (hgcP : getCurrentFileP r = some ⟨Lp, j.content, false⟩)
    (hlj : lookupF r Lp = some j)
    (hjc : j.current = true) (hjt : j.tabs = true) :
    changeCurrentFile r Lp = r := by
  have hok : getCurrentFile r = Except.ok (some ⟨Lp, j.content, false⟩) := by
    rw [getCurrentFile_of_noundef hn, hgcP]
  have hcc : clearCurrent r = setF r Lp (some { j with current := false }) :=
    clearCurrent_of_ok_some hok hlj
  have hlcc : lookupF (clearCurrent r) Lp
      = some { j with current := false } := by
    rw [hcc]
    exact lookupF_setF_self _ _ _
  obtain ⟨b, hb, hEq⟩ := ccf_shape _ hok hlcc
  have hbt : b = true := hb hjt
  rw [hEq, hcc, setF_setF, hbt]
  have hj : (⟨({ j with current := false } : ItemInfo).content, true, true⟩
      : ItemInfo) = j := by
    cases j
    simp_all
  rw [hj]
  exact setF_same hlj

/-! ## Support lemmas for the remaining claims -/

theorem getLast_map {α β : Type} (f : α → β) (l : List α) :
    (l.map f).getLast? = l.getLast?.map f := by
  induction l with
  | nil => simp
  | cons x xs ih =>
    cases xs with
    | nil => simp
    | cons y ys => simpa [List.getLast?_cons_cons] using ih

theorem prefOf_refl (l : List Char) : prefOf l l = true := by
  induction l with
  | nil => rfl
  | cons c cs ih => simp [prefOf, ih]

theorem strStartsWith_self (s : String) : strStartsWith s s = true :=
  prefOf_refl s.toList

theorem renameFolderLoop_no_invalid (oldName newName : String)
    (keys : List String) (files : Files) :
    (renameFolderLoop oldName newName keys files).2
      ≠ some ItemError.InvalidName := by
  induction keys generalizing files with
  | nil => simp [renameFolderLoop]
  | cons path rest ih =>
    unfold renameFolderLoop
    by_cases hk : path ∈ keysF files
    · rw [if_pos hk]
      rcases hln : lookupF files (renameSegments oldName newName path)
          with _ | other
      · simp only [hln]
        exact ih _
      · simp only [hln]
        simp
    · rw [if_neg hk]
      exact ih _

theorem strEndsWith_append_slash (s : String) :
    strEndsWith (s ++ "/") "/" = true := by
  unfold strEndsWith
  have h1 : (s ++ "/").toList = s.toList ++ ['/'] := by
    show (s ++ "/").data = s.data ++ ['/']
    rw [String.data_append]
  have h2 : ("/" : String).toList = ['/'] := rfl
  rw [h1, h2]
  simp [List.reverse_append, prefOf]

theorem strEndsWith_slash_fold (l : List String) (acc : String)
    (h : strEndsWith acc "/" = true) :
    strEndsWith
      (l.foldl
        (fun parentPath item =>
          if item = "" then parentPath else parentPath ++ item ++ "/")
        acc)
      "/" = true := by
  induction l generalizing acc with
  | nil => exact h
  | cons x xs ih =>
    rw [List.foldl_cons]
    apply ih
    split
    · exact h
    · exact strEndsWith_append_slash _

theorem parentPath_endsWith_slash (path : String) :
    strEndsWith (getParentPathFromPath path) "/" = true := by
  unfold getParentPathFromPath
  apply strEndsWith_slash_fold
  decide

theorem foldl_snd_eq {α β γ : Type} (f : β × γ → α → β × γ)
    (hf : ∀ acc x, (f acc x).2 = acc.2) (l : List α) (acc : β × γ) :
    (l.foldl f acc).2 = acc.2 := by
  induction l generalizing acc with
  | nil => rfl
  | cons x xs ih => rw [List.foldl_cons, ih, hf]

/-! ## The claims -/

/-- C1 (code bug in `Explorer.renameItem`, folder branch): the spec claims
that renaming folder `/a/` to `b` with files `/a/x.rs` and `/a/sub/y.rs`
yields exactly `/b/`, `/b/x.rs`, `/b/sub/y.rs`.  The loop that rebuilds each
path appends `"/"` after every chunk — including the final one — so the code
actually yields `/b//`, `/b/x.rs/`, `/b/sub/y.rs/` (metadata carried over),
and none of the claimed paths is a key of the result.  This contradicts the
source's own comment, which describes recreating the path with only the
folder segment replaced. -/
theorem c1_rename_appends_slash :
    renameItem
        [("/a/", some emptyInfo),
         ("/a/x.rs", some (⟨some "X", true, true⟩ : ItemInfo)),
         ("/a/sub/y.rs", some (⟨some "Y", false, false⟩ : ItemInfo))]
        "/a/" "b"
      = ([("/b//", some emptyInfo), ("/b/x.rs/", some ⟨some "X", true, true⟩),
          ("/b/sub/y.rs/", some ⟨some "Y", false, false⟩)], none) ∧
    lookupF
        (renameItem
          [("/a/", some emptyInfo),
           ("/a/x.rs", some ⟨some "X", true, true⟩),
           ("/a/sub/y.rs", some ⟨some "Y", false, false⟩)] "/a/" "b").1
        "/b/" = none ∧
    lookupF
        (renameItem
          [("/a/", some emptyInfo),
           ("/a/x.rs", some ⟨some "X", true, true⟩),
           ("/a/sub/y.rs", some ⟨some "Y", false, false⟩)] "/a/" "b").1
        "/b/x.rs" = none ∧
    lookupF
        (renameItem
          [("/a/", some emptyInfo),
           ("/a/x.rs", some ⟨some "X", true, true⟩),
           ("/a/sub/y.rs", some ⟨some "Y", false, false⟩)] "/a/" "b").1
        "/b/sub/y.rs" = none := by
  decide

/-- C2 counterexample (spec Scenario C): renaming `/a/` (containing
`/a/m.rs`) to `b` while `/b/` exists returns `AlreadyExists`, but the map
has been partially rewritten: `/a/` and `/a/m.rs` were already moved (to
`/b//` and `/b/m.rs/`) before the collision was detected, and `/a/m.rs` is
gone. -/
theorem c2_rename_counterexample :
    renameItem
        [("/a/", some emptyInfo),
         ("/a/m.rs", some (⟨some "M", true, true⟩ : ItemInfo)),
         ("/b/", some (⟨some "B", false, false⟩ : ItemInfo))]
        "/a/" "b"
      = ([("/b/", some ⟨some "B", false, false⟩), ("/b//", some emptyInfo),
          ("/b/m.rs/", some ⟨some "M", true, true⟩)],
         some ItemError.AlreadyExists) ∧
    lookupF
        (renameItem
          [("/a/", some emptyInfo),
           ("/a/m.rs", some ⟨some "M", true, true⟩),
           ("/b/", some ⟨some "B", false, false⟩)] "/a/" "b").1
        "/a/m.rs" = none := by
  decide

/-- C2 (amended): `renameItem` leaves the map unchanged whenever it returns
`InvalidName` (the check precedes every mutation), and whenever it returns
any error for a file path (the collision check precedes the move).  Only the
folder branch can return `AlreadyExists` after partially rewriting the map,
as the counterexample shows. -/
theorem c2_rename_error_atomicity (files : Files) (fullPath newName : String) :
    ((renameItem files fullPath newName).2 = some ItemError.InvalidName →
      (renameItem files fullPath newName).1 = files) ∧
    (getItemTypeFromPath fullPath = ItemType.file →
      (renameItem files fullPath newName).2.isSome →
      (renameItem files fullPath newName).1 = files) := by
  unfold renameItem
  split
  · exact ⟨fun _ => rfl, fun _ _ => rfl⟩
  · rcases ht : getItemTypeFromPath fullPath with _ | _
    · simp only []
      rcases hln : lookupF files (getParentPathFromPath fullPath ++ newName)
          with _ | other
      · simp only [hln]
        exact ⟨fun hI => by simp at hI, fun _ hS => by simp at hS⟩
      · simp [hln]
    · simp only []
      constructor
      · intro hI
        exact absurd hI (renameFolderLoop_no_invalid _ _ _ _)
      · intro hf _
        simp [ht] at hf

/-- Witness for C2: an `InvalidName` rename (name starts with a dot) and a
file-path `AlreadyExists` rename both leave the map unchanged. -/
theorem c2_rename_error_atomicity_witness :
    (renameItem [("/x.rs", some emptyInfo)] "/x.rs" ".bad").1
      = [("/x.rs", some emptyInfo)] ∧
    (renameItem [("/a.rs", some emptyInfo), ("/b.rs", some emptyInfo)]
        "/a.rs" "b.rs").1
      = [("/a.rs", some emptyInfo), ("/b.rs", some emptyInfo)] :=
  ⟨(c2_rename_error_atomicity _ "/x.rs" ".bad").1 (by decide),
   (c2_rename_error_atomicity _ "/a.rs" "b.rs").2 (by decide) (by decide)⟩

/-- C3 (code bug): the claimed invariant — every sequence of the six
mutation operations preserves "at most one entry has the `current` flag" —
fails on the source.  `renameItem` on the absent file path `/zzz` stores
`undefined` under the new key `/w` (`files[newPath] = file` with `file`
`undefined`); the later `newItem("/e.rs")` then calls `changeCurrentFile`,
whose `getCurrentFile()` dereferences that `undefined` entry and throws a
`TypeError` before the old current file `/d.rs` is cleared, leaving **two**
entries with `current = true`.  The code contradicts its own
`files: {[key: string]: ItemInfo}` interface by storing `undefined` in the
map. -/
theorem c3_two_currents :
    Wf [("/c.rs", some (⟨some "C", true, true⟩ : ItemInfo))] ∧
    curCount [("/c.rs", some (⟨some "C", true, true⟩ : ItemInfo))] = 1 ∧
    List.foldl applyOp
        [("/c.rs", some (⟨some "C", true, true⟩ : ItemInfo))]
        [Op.renameItemOp "/zzz" "w", Op.renameItemOp "/c.rs" "d.rs",
         Op.newItemOp "/e.rs"]
      = [("/w", none), ("/d.rs", some ⟨some "C", true, true⟩),
         ("/e.rs", some ⟨some "", true, true⟩)] ∧
    curCount
        (List.foldl applyOp
          [("/c.rs", some (⟨some "C", true, true⟩ : ItemInfo))]
          [Op.renameItemOp "/zzz" "w", Op.renameItemOp "/c.rs" "d.rs",
           Op.newItemOp "/e.rs"]) = 2 :=
  ⟨by unfold Wf keysF; decide, by unfold curCount; decide, by decide,
   by unfold curCount; decide⟩

/-- C4 counterexample: closing the only open tab of the current file leaves
the stale `current` flag on the closed file, which no longer appears in
`getTabs` — the claimed invariant `current ⇒ tab` fails exactly in the case
the claim singles out ("including when it was the only open tab"):
`changeCurrentFileToTheLastTab` returns without touching the current flag
when no tab remains. -/
theorem c4_current_tab_counterexample :
    getCurrentFile
        (removeFromTabs [("/a.rs", some (⟨some "", true, true⟩ : ItemInfo))]
          "/a.rs")
      = Except.ok (some ⟨"/a.rs", some "", false⟩) ∧
    getTabs
        (removeFromTabs [("/a.rs", some (⟨some "", true, true⟩ : ItemInfo))]
          "/a.rs")
      = Except.ok [] := by
  decide

/-- C4 (amended): after `removeFromTabs p` on an existing key, in a map with
pairwise-distinct keys and at most one current entry, the current file is in
`getTabs` whenever `getTabs` returns without throwing and is nonempty
afterwards; when the closed tab was the last one, the closed file keeps a
stale `current` flag while no longer being a tab, as the counterexample
shows. -/
theorem c4_current_in_tabs_amended (files : Files) (p : String) (i : ItemInfo)
    (hw : Wf files) (hc : curCount files ≤ 1)
    (hp : lookupF files p = some i) (tabs : List FullFile)
    (hT : getTabs (removeFromTabs files p) = Except.ok tabs)
    (hne : tabs ≠ []) :
    ∃ cf, getCurrentFile (removeFromTabs files p) = Except.ok (some cf) ∧
      cf.path ∈ tabs.map FullFile.path := by
  rw [removeFromTabs_eq hp] at hT ⊢
  have hw1 : Wf (setF files p (some { i with tabs := false })) :=
    wf_setF _ _ hw
  have hc1 : curCount (setF files p (some { i with tabs := false })) ≤ 1 := by
    have h2 := @curCount_setF_same_current files p (some i)
      (some { i with tabs := false }) hw (lookupF_mem hp) rfl
    omega
  rcases hgt : getTabs (setF files p (some { i with tabs := false }))
      with e | tabs1
  · rw [cctlt_of_error hgt] at hT
    rw [hgt] at hT
    simp at hT
  · have hn1 : NoUndef (setF files p (some { i with tabs := false })) :=
      noundef_of_getTabs_ok hgt
    have ht1 : tabs1 = getTabsP (setF files p (some { i with tabs := false })) :=
      getTabs_ok_val hgt
    rcases hgl : tabs1.getLast? with _ | L
    · rw [List.getLast?_eq_none_iff] at hgl
      subst hgl
      rw [cctlt_of_empty hgt] at hT
      rw [hgt] at hT
      injection hT with hT2
      exact absurd hT2.symm hne
    · rw [cctlt_of_last hgt hgl] at hT ⊢
      have hLmem : L ∈ getTabsP (setF files p (some { i with tabs := false })) :=
        ht1 ▸ mem_of_getLast_eq hgl
      have hLlook : lookupF (setF files p (some { i with tabs := false }))
          L.path = some ⟨L.content, L.current, true⟩ :=
        getTabsP_lookup hw1 hLmem
      obtain ⟨j, hjl, hjc, hjcont, hjtabs⟩ := ccf_lookup_target hn1 hLlook
      have hjt : j.tabs = true := hjtabs rfl
      have hcount : curCount
          (changeCurrentFile (setF files p (some { i with tabs := false }))
            L.path)
          = 1 := ccf_count_eq_one hw1 hn1 hc1 (by simp [hLlook])
      have hnr : NoUndef
          (changeCurrentFile (setF files p (some { i with tabs := false }))
            L.path) := noundef_ccf _ hn1
      have hgcP := getCurrentFileP_unique hcount (lookupF_mem hjl) hjc
      refine ⟨⟨L.path, j.content, false⟩, ?_, ?_⟩
      · rw [getCurrentFile_of_noundef hnr, hgcP]
      · have htr := getTabs_ok_val hT
        rw [htr]
        have hmem := mem_getTabsP_of (lookupF_mem hjl) hjt
        exact List.mem_map.mpr ⟨⟨L.path, j.content, j.current⟩, hmem, rfl⟩

/-- Witness for C4: spec Scenario B — closing tab `/a.rs` (the current file)
while `/b.rs` is also open re-targets `current` to `/b.rs`, which is a
tab. -/
theorem c4_current_in_tabs_amended_witness :
    getTabs
        (removeFromTabs
          [("/a.rs", some (⟨some "", true, true⟩ : ItemInfo)),
           ("/b.rs", some (⟨some "", false, true⟩ : ItemInfo))]
          "/a.rs")
      = Except.ok [⟨"/b.rs", some "", true⟩] ∧
    ([(⟨"/b.rs", some "", true⟩ : FullFile)]).map FullFile.path ≠ [] ∧
    (∃ cf,
      getCurrentFile
          (removeFromTabs
            [("/a.rs", some (⟨some "", true, true⟩ : ItemInfo)),
             ("/b.rs", some (⟨some "", false, true⟩ : ItemInfo))]
            "/a.rs")
        = Except.ok (some cf) ∧
      cf.path ∈ ([(⟨"/b.rs", some "", true⟩ : FullFile)]).map FullFile.path) :=
  ⟨by decide, by decide,
   c4_current_in_tabs_amended _ "/a.rs" ⟨some "", true, true⟩
     (by unfold Wf keysF; decide) (by unfold curCount; decide) (by decide)
     [⟨"/b.rs", some "", true⟩] (by decide) (by decide)⟩

/-- C5 (code bug in `Explorer.deleteItem`): the cascade matches keys with
raw `startsWith`, so deleting `/foo` also removes the unrelated sibling
`/foobar`, which is neither `/foo` itself nor a segment-delimited descendant
(it does not start with `/foo/`).  The spec flags segment-exact matching as
a correctness requirement. -/
theorem c5_delete_prefix_overmatch :
    lookupF [("/foo", some emptyInfo),
        ("/foobar", some (⟨some "z", false, false⟩ : ItemInfo))] "/foobar"
      = some ⟨some "z", false, false⟩ ∧
    ("/foobar" : String) ≠ "/foo" ∧
    strStartsWith "/foobar" "/foo/" = false ∧
    lookupF
        (deleteItem
          [("/foo", some emptyInfo),
           ("/foobar", some ⟨some "z", false, false⟩)]
          "/foo")
        "/foobar" = none := by
  decide

/-- C6 counterexample: `/a.rs` is not a key and has no descendants, yet
`deleteItem` changes the map — it unconditionally writes an empty folder
entry at the parent path `/`. -/
theorem c6_delete_missing_counterexample :
    (∀ kv ∈ ([("/src/", some emptyInfo),
        ("/src/lib.rs", some (⟨some "x", true, true⟩ : ItemInfo))] : Files),
      kv.1 ≠ "/a.rs" ∧ strStartsWith kv.1 "/a.rs/" = false) ∧
    deleteItem
        [("/src/", some emptyInfo),
         ("/src/lib.rs", some ⟨some "x", true, true⟩)]
        "/a.rs"
      ≠ [("/src/", some emptyInfo),
         ("/src/lib.rs", some ⟨some "x", true, true⟩)] := by
  decide

/-- C6 (amended): for a path `p` matching no key even as a raw prefix,
`deleteItem p` raises no error and removes nothing, but it is not a no-op:
it writes an empty folder entry at `parentPath(p)` (inserting or resetting
it), and adds a `src/` child when the map would otherwise hold a single
entry. -/
theorem c6_delete_missing_amended (files : Files) (p : String)
    (h : ∀ kv ∈ files, strStartsWith kv.1 p = false) :
    deleteItem files p =
      (if (setF files (getParentPathFromPath p) (some emptyInfo)).length == 1
      then
        setF (setF files (getParentPathFromPath p) (some emptyInfo))
          (getParentPathFromPath p ++ "src/") (some emptyInfo)
      else setF files (getParentPathFromPath p) (some emptyInfo)) := by
  have hl : lookupF files p = none := by
    apply lookupF_of_not_key
    intro hmem
    unfold keysF at hmem
    rcases List.mem_map.mp hmem with ⟨kv, hkv, he⟩
    have hfalse := h kv hkv
    rw [he, strStartsWith_self] at hfalse
    cases hfalse
  have hfilter : (files.filter fun kv => !strStartsWith kv.1 p) = files := by
    apply List.filter_eq_self.mpr
    intro kv hkv
    simp [h kv hkv]
  simp [deleteItem, hl, hfilter]

/-- Witness for C6: deleting the nonexistent `/a.rs` appends a root folder
entry `/` to the map. -/
theorem c6_delete_missing_amended_witness :
    deleteItem
        [("/src/", some emptyInfo),
         ("/src/lib.rs", some (⟨some "x", true, true⟩ : ItemInfo))]
        "/a.rs"
      = [("/src/", some emptyInfo),
         ("/src/lib.rs", some ⟨some "x", true, true⟩),
         ("/", some emptyInfo)] := by
  have h := c6_delete_missing_amended
    [("/src/", some emptyInfo), ("/src/lib.rs", some ⟨some "x", true, true⟩)]
    "/a.rs" (by decide)
  rw [h]
  decide

/-- C7 counterexample: `saveFile` on a folder key (`/src/`, trailing slash)
writes the content onto the folder entry instead of leaving the map
unchanged. -/
theorem c7_saveFile_counterexample :
    saveFile [("/src/", some emptyInfo)] "/src/" "x"
      = [("/src/", some (⟨some "x", false, false⟩ : ItemInfo))] ∧
    saveFile [("/src/", some emptyInfo)] "/src/" "x"
      ≠ [("/src/", some emptyInfo)] := by
  decide

/-- C7 (amended): `saveFile p c` overwrites the content of the entry at `p`
whenever `p` is a key holding an entry — folders included, the only check is
key truthiness — leaves the map unchanged when the read yields nothing, and
never adds or removes a key. -/
theorem c7_saveFile_amended (files : Files) (p c : String) :
    keysF (saveFile files p c) = keysF files ∧
    (lookupF files p = none → saveFile files p c = files) ∧
    ∀ i, lookupF files p = some i →
      saveFile files p c = setF files p (some { i with content := some c }) := by
  refine ⟨?_, ?_, ?_⟩
  · unfold saveFile
    rcases hl : lookupF files p with _ | i
    · rfl
    · exact keysF_setF_of_key _ (lookupF_some_key hl)
  · intro h
    simp [saveFile, h]
  · intro i h
    simp [saveFile, h]

/-- Witness for C7: overwriting the content of an existing file entry. -/
theorem c7_saveFile_amended_witness :
    saveFile [("/a.rs", some (⟨some "old", true, true⟩ : ItemInfo))]
        "/a.rs" "new"
      = setF [("/a.rs", some (⟨some "old", true, true⟩ : ItemInfo))] "/a.rs"
          (some ⟨some "new", true, true⟩) :=
  (c7_saveFile_amended _ "/a.rs" "new").2.2 ⟨some "old", true, true⟩
    (by decide)

/-- C8: after any `deleteItem`, the map still contains an entry at
`parentPath(p)` — a folder key, since every parent path ends in `/` — so
the map is never left empty. -/
theorem c8_delete_keeps_folder (files : Files) (p : String) :
    (lookupF (deleteItem files p) (getParentPathFromPath p)).isSome = true ∧
    strEndsWith (getParentPathFromPath p) "/" = true ∧
    deleteItem files p ≠ [] := by
  have hbase : (lookupF
      (setF (files.filter fun kv => !strStartsWith kv.1 p)
        (getParentPathFromPath p) (some emptyInfo))
      (getParentPathFromPath p)).isSome = true := by
    rw [lookupF_setF_self]
    rfl
  have hsome : (lookupF (deleteItem files p)
      (getParentPathFromPath p)).isSome = true := by
    simp only [deleteItem]
    split
    · split
      · exact cctlt_isSome (lookupF_isSome_setF_some _ _ hbase)
      · exact cctlt_isSome hbase
    · split
      · exact lookupF_isSome_setF_some _ _ hbase
      · exact hbase
  refine ⟨hsome, parentPath_endsWith_slash p, ?_⟩
  intro hnil
  rw [hnil] at hsome
  simp [lookupF] at hsome

/-- C9: on a map with pairwise-distinct keys and at most one current entry,
closing the tab of an existing key twice produces exactly the same map as
closing it once: the second `tabs = false` write is a no-op and the second
`changeCurrentFileToTheLastTab` re-selects the same last tab, rewriting its
flags with their existing values (and when `getTabs` throws, both calls
abort at the same point, leaving the same map). -/
theorem c9_removeFromTabs_idempotent (files : Files) (p : String)
    (hw : Wf files) (hc : curCount files ≤ 1)
    (hp : (lookupF files p).isSome) :
    removeFromTabs (removeFromTabs files p) p = removeFromTabs files p := by
  rcases hlp : lookupF files p with _ | i
  · rw [hlp] at hp
    simp at hp
  rw [removeFromTabs_eq hlp]
  have hw1 : Wf (setF files p (some { i with tabs := false })) :=
    wf_setF _ _ hw
  have hc1 : curCount (setF files p (some { i with tabs := false })) ≤ 1 := by
    have h2 := @curCount_setF_same_current files p (some i)
      (some { i with tabs := false }) hw (lookupF_mem hlp) rfl
    omega
  have hlook1p : lookupF (setF files p (some { i with tabs := false })) p
      = some { i with tabs := false } := lookupF_setF_self _ _ _
  rcases hgt : getTabs (setF files p (some { i with tabs := false }))
      with e | tabs1
  · rw [cctlt_of_error hgt]
    rw [removeFromTabs_eq hlook1p]
    rw [@item_set_tabs_false_eq ({ i with tabs := false }) rfl]
    rw [setF_same hlook1p]
    exact cctlt_of_error hgt
  · have hn1 : NoUndef (setF files p (some { i with tabs := false })) :=
      noundef_of_getTabs_ok hgt
    have ht1 : tabs1 = getTabsP (setF files p (some { i with tabs := false })) :=
      getTabs_ok_val hgt
    rcases hgl : tabs1.getLast? with _ | L
    · rw [List.getLast?_eq_none_iff] at hgl
      subst hgl
      rw [cctlt_of_empty hgt]
      rw [removeFromTabs_eq hlook1p]
      rw [@item_set_tabs_false_eq ({ i with tabs := false }) rfl]
      rw [setF_same hlook1p]
      exact cctlt_of_empty hgt
    · rw [cctlt_of_last hgt hgl]
      have hglP : (getTabsP (setF files p
          (some { i with tabs := false }))).getLast? = some L := ht1 ▸ hgl
      have hLmem : L ∈ getTabsP (setF files p (some { i with tabs := false })) :=
        ht1 ▸ mem_of_getLast_eq hgl
      have hLlook : lookupF (setF files p (some { i with tabs := false }))
          L.path = some ⟨L.content, L.current, true⟩ :=
        getTabsP_lookup hw1 hLmem
      have hne : p ≠ L.path := by
        intro he
        rw [← he] at hLlook
        rw [hlook1p] at hLlook
        injection hLlook with hinj
        have h3 := congrArg ItemInfo.tabs hinj
        simp at h3
      obtain ⟨j, hjl, hjc, hjcont, hjtabs⟩ := ccf_lookup_target hn1 hLlook
      have hjt : j.tabs = true := hjtabs rfl
      have hcnt : curCount (changeCurrentFile
          (setF files p (some { i with tabs := false })) L.path) = 1 :=
        ccf_count_eq_one hw1 hn1 hc1 (by simp [hLlook])
      have hnr : NoUndef (changeCurrentFile
          (setF files p (some { i with tabs := false })) L.path) :=
        noundef_ccf _ hn1
      have hgcP := getCurrentFileP_unique hcnt (lookupF_mem hjl) hjc
      obtain ⟨i2, hlrp, hi2c, hi2t⟩ := ccf_lookup_other hn1 hne hlook1p
      have hi2tabs : i2.tabs = false := by simpa using hi2t
      rw [removeFromTabs_eq hlrp]
      rw [@item_set_tabs_false_eq i2 hi2tabs]
      rw [setF_same hlrp]
      have hpaths : (getTabsP (changeCurrentFile
            (setF files p (some { i with tabs := false })) L.path)).map
            FullFile.path
          = (getTabsP (setF files p (some { i with tabs := false }))).map
            FullFile.path :=
        ccf_tabsPaths hn1 hLlook rfl
      have h2 := getLast_map FullFile.path
        (getTabsP (setF files p (some { i with tabs := false })))
      rw [hglP] at h2
      have h1 := getLast_map FullFile.path
        (getTabsP (changeCurrentFile
          (setF files p (some { i with tabs := false })) L.path))
      rw [hpaths] at h1
      rw [h1] at h2
      have hgtr := getTabs_of_noundef hnr
      rcases hgr : (getTabsP (changeCurrentFile
          (setF files p (some { i with tabs := false })) L.path)).getLast?
          with _ | M
      · rw [hgr] at h2
        simp at h2
      · rw [hgr] at h2
        simp at h2
        rw [cctlt_of_last hgtr hgr, h2]
        exact ccf_fixed hnr hgcP hjl hjc hjt

/-- Witness for C9: closing the current tab `/a.rs` twice in a two-tab
project gives the same map as closing it once. -/
theorem c9_removeFromTabs_idempotent_witness :
    removeFromTabs
        (removeFromTabs
          [("/a.rs", some (⟨some "", true, true⟩ : ItemInfo)),
           ("/b.rs", some (⟨some "", false, true⟩ : ItemInfo))]
          "/a.rs")
        "/a.rs"
      = removeFromTabs
          [("/a.rs", some (⟨some "", true, true⟩ : ItemInfo)),
           ("/b.rs", some (⟨some "", false, true⟩ : ItemInfo))]
          "/a.rs" :=
  c9_removeFromTabs_idempotent _ "/a.rs" (by unfold Wf keysF; decide)
    (by unfold curCount; decide) (by decide)

/-- C10: the five query methods contain no assignment to the map; their
statement-by-statement translations return the map exactly as given (also
on the paths where a read of an `undefined`-holding entry throws, since the
throw happens before any write). -/
theorem c10_queries_frame (files : Files) (path : String) :
    (getFolderContentS files path).2 = files ∧
    (getCurrentFileS files).2 = files ∧
    (getTabsS files).2 = files ∧
    (getBuildFilesS files).2 = files ∧
    (getFileContentFromPathS files path).2 = files := by
  refine ⟨?_, ?_, ?_, ?_, rfl⟩
  · unfold getFolderContentS
    apply foldl_snd_eq
    intro acc x
    dsimp only
    split
    · split
      · split
        · rfl
        · rfl
      · rfl
    · rfl
  · unfold getCurrentFileS
    apply foldl_snd_eq
    intro acc x
    dsimp only
    split
    · rfl
    · rfl
    · split
      · split
        · rfl
        · rfl
      · rfl
  · unfold getTabsS
    apply foldl_snd_eq
    intro acc x
    dsimp only
    split
    · rfl
    · split
      · split
        · rfl
        · rfl
      · rfl
  · unfold getBuildFilesS
    apply foldl_snd_eq
    intro acc x
    dsimp only
    split
    · rfl
    · split
      · split
        · split
          · rfl
          · rfl
        · rfl
      · rfl

end SolPg
